import Mathlib

/-
  Verification development for a small Boolean information-retrieval engine:
  a UTF-8 tokenizer with lowercasing (lab3_text/cpp/tokenizer.cpp), a
  suffix-stripping stemmer (stemmer.hpp), an inverted-index builder with a
  binary codec, and a Boolean query engine over sorted posting lists
  (lab4_bool/builder.cpp).  Strings are modelled as lists of bytes
  (List Nat, each element intended < 256); machine 32-bit integers are
  modelled as Nat with explicit reduction modulo 2^32 where the code casts.
-/

/-- Tokenizer configuration: lowercase flag, keep-dashes, keep-apostrophes,
minimum token length in UTF-8 codepoints (fields of class Tokenizer). -/
structure TokCfg where
  lower : Bool
  dashes : Bool
  apos : Bool
  min_len : Nat
deriving DecidableEq

/-- Advance classification of is_token_char: not a token char, or a token
char consuming one byte, or a token char consuming two bytes. -/
inductive Adv
  | stop
  | one
  | two
deriving DecidableEq

/-- is_ascii_letter from tokenizer.cpp. -/
def is_ascii_letter (c : Nat) : Bool :=
  decide ((65 ≤ c ∧ c ≤ 90) ∨ (97 ≤ c ∧ c ≤ 122))

/-- is_digit from tokenizer.cpp. -/
def is_digit (c : Nat) : Bool :=
  decide (48 ≤ c ∧ c ≤ 57)

/-- is_cyrillic_start from tokenizer.cpp: lead byte 0xD0 or 0xD1 with a
continuation byte in 0x80..0xBF. -/
def is_cyr_pair (c1 c2 : Nat) : Bool :=
  decide ((c1 = 208 ∧ 128 ≤ c2 ∧ c2 ≤ 191) ∨ (c1 = 209 ∧ 128 ≤ c2 ∧ c2 ≤ 191))

/-- Lookahead test: the byte c together with the head of the following
bytes forms a Cyrillic two-byte sequence (requires pos+1 < size). -/
def cyr_head (rest : List Nat) (c : Nat) : Bool :=
  match rest with
  | c2 :: _ => is_cyr_pair c c2
  | [] => false

/-- is_token_char from tokenizer.cpp, on the byte list suffix starting at
the current position: returns the advance (1 or 2) when the position starts
a token character, .stop otherwise (the caller advances by one byte then). -/
def tok_adv (cfg : TokCfg) (c : Nat) (rest : List Nat) : Adv :=
  if is_ascii_letter c || is_digit c then .one
  else if cyr_head rest c then .two
  else if cfg.dashes ∧ c = 45 then .one
  else if cfg.apos ∧ c = 39 then .one
  else .stop

/-- The separator-skipping loop of Tokenizer::tokenize: drop bytes one at a
time while the current position is not a token character. -/
def skip_sep (cfg : TokCfg) : List Nat → List Nat
  | [] => []
  | c :: rest =>
    match tok_adv cfg c rest with
    | .stop => skip_sep cfg rest
    | _ => c :: rest

/-- The token-scanning loop of Tokenizer::tokenize: the number of bytes of
the maximal run of token characters starting at the current position,
advancing by the per-character advance (1 or 2 bytes). -/
def scan_tok (cfg : TokCfg) : List Nat → Nat
  | [] => 0
  | [c] =>
    match tok_adv cfg c [] with
    | .stop => 0
    | .one => 1
    | .two => 2
  | c :: c2 :: rest =>
    match tok_adv cfg c (c2 :: rest) with
    | .stop => 0
    | .one => 1 + scan_tok cfg (c2 :: rest)
    | .two => 2 + scan_tok cfg rest

/-- Tokenizer::to_lower: ASCII A-Z get +32; a 0xD0 lead with trail in
0x90..0xAF becomes 0xD0 with trail+0x20; the pair 0xD0 0x81 becomes
0xD1 0x91; any other byte is copied unchanged. -/
def to_lower : List Nat → List Nat
  | [] => []
  | [c] => if 65 ≤ c ∧ c ≤ 90 then [c + 32] else [c]
  | c :: c2 :: rest =>
    if 65 ≤ c ∧ c ≤ 90 then (c + 32) :: to_lower (c2 :: rest)
    else if c = 208 ∧ 144 ≤ c2 ∧ c2 ≤ 175 then 208 :: (c2 + 32) :: to_lower rest
    else if c = 208 ∧ c2 = 129 then 209 :: 145 :: to_lower rest
    else c :: to_lower (c2 :: rest)

/-- utf8_char_count from tokenizer.cpp: counts codepoints by lead-byte
classification, advancing 1 to 4 bytes per counted character. -/
def utf8_char_count : List Nat → Nat
  | [] => 0
  | c :: rest =>
    if c < 128 then 1 + utf8_char_count rest
    else if c &&& 224 = 192 then
      match rest with
      | [] => 1
      | _ :: r2 => 1 + utf8_char_count r2
    else if c &&& 240 = 224 then
      match rest with
      | [] => 1
      | [_] => 1
      | _ :: _ :: r3 => 1 + utf8_char_count r3
    else if c &&& 248 = 240 then
      match rest with
      | [] => 1
      | [_] => 1
      | [_, _] => 1
      | _ :: _ :: _ :: r4 => 1 + utf8_char_count r4
    else 1 + utf8_char_count rest

/-- The content scan of Tokenizer::is_valid_token: some position holds an
ASCII letter or digit, or starts a two-byte Cyrillic sequence. -/
def has_alnum_or_cyr : List Nat → Bool
  | [] => false
  | c :: rest =>
    if is_ascii_letter c || is_digit c then true
    else if cyr_head rest c then true
    else has_alnum_or_cyr rest

/-- Tokenizer::is_valid_token: non-empty, codepoint count at least the
configured minimum, and contains at least one letter/digit/Cyrillic char. -/
def is_valid_token (cfg : TokCfg) (t : List Nat) : Bool :=
  if t = [] then false
  else if utf8_char_count t < cfg.min_len then false
  else has_alnum_or_cyr t

/-- Bytes trimmed from token edges by Tokenizer::tokenize: dash and
apostrophe. -/
def is_trim_byte (c : Nat) : Bool :=
  decide (c = 45 ∨ c = 39)

/-- The edge-trimming of Tokenizer::tokenize: strip leading then trailing
dashes/apostrophes from a raw token. -/
def trim_token (t : List Nat) : List Nat :=
  ((t.dropWhile is_trim_byte).reverse.dropWhile is_trim_byte).reverse

/-- Post-processing of one raw token in Tokenizer::tokenize: trim edges,
then lowercase when configured. -/
def make_token (cfg : TokCfg) (raw : List Nat) : List Nat :=
  let t := trim_token raw
  if cfg.lower then to_lower t else t

/-- The outer loop of Tokenizer::tokenize, with explicit fuel bounding the
number of iterations; each iteration consumes at least one byte, so fuel
equal to the input length suffices (proved below). -/
def tokenize_go (cfg : TokCfg) : Nat → List Nat → List (List Nat)
  | 0, _ => []
  | fuel + 1, s =>
    match skip_sep cfg s with
    | [] => []
    | c :: rest =>
      let n := scan_tok cfg (c :: rest)
      let tok := make_token cfg ((c :: rest).take n)
      if is_valid_token cfg tok
      then tok :: tokenize_go cfg fuel ((c :: rest).drop n)
      else tokenize_go cfg fuel ((c :: rest).drop n)

/-- Tokenizer::tokenize on a byte string. -/
def tokenize (cfg : TokCfg) (text : List Nat) : List (List Nat) :=
  tokenize_go cfg text.length text

/-- The tokenizer configuration used by both builder and search main:
lowercase on, dashes and apostrophes kept (constructor defaults), minimum
token length 2. -/
def search_cfg : TokCfg :=
  { lower := true, dashes := true, apos := true, min_len := 2 }

/-- has_cyrillic from stemmer.hpp: some byte is at least 0xD0. -/
def has_cyrillic : List Nat → Bool
  | [] => false
  | c :: rest => if 208 ≤ c then true else has_cyrillic rest

/-- The Russian suffix table of stem_token, in declared order (UTF-8 bytes);
the last entry duplicates an earlier one exactly as in the source. -/
def ru_suffixes : List (List Nat) :=
  [[208, 184, 209, 143, 208, 188, 208, 184],
   [209, 143, 208, 188, 208, 184],
   [208, 176, 208, 188, 208, 184],
   [208, 184, 208, 181, 208, 185],
   [208, 190, 208, 185],
   [208, 181, 208, 185],
   [208, 184, 208, 184],
   [208, 184, 208, 185],
   [209, 139, 208, 185],
   [208, 184, 209, 143],
   [209, 140, 209, 143],
   [209, 143],
   [208, 184, 209, 142],
   [209, 140, 209, 142],
   [209, 142],
   [208, 190, 208, 178],
   [208, 181, 208, 178],
   [208, 181, 208, 188],
   [208, 176, 208, 188],
   [208, 190, 208, 188],
   [208, 176, 209, 133],
   [209, 143, 209, 133],
   [208, 184, 209, 143, 208, 188],
   [209, 143, 208, 188],
   [208, 181, 209, 142],
   [208, 184, 208, 181],
   [209, 139, 208, 181],
   [208, 190, 208, 181],
   [208, 184, 208, 181, 209, 142],
   [208, 184, 208, 181, 208, 185]]

/-- The English suffix table of stem_token, in declared order (ASCII). -/
def en_suffixes : List (List Nat) :=
  [[105, 110, 103, 108, 121],
   [101, 100, 108, 121],
   [110, 101, 115, 115],
   [109, 101, 110, 116],
   [105, 111, 117, 115],
   [116, 105, 111, 110],
   [115, 105, 111, 110],
   [97, 98, 108, 101],
   [105, 98, 108, 101],
   [97, 108, 108, 121],
   [108, 101, 115, 115],
   [102, 117, 108],
   [101, 115, 116],
   [101, 114, 115],
   [105, 101, 115],
   [105, 110, 103],
   [101, 100],
   [108, 121],
   [101, 115],
   [115]]

/-- strip_suffix from stemmer.hpp: scan the table in declared order and
strip the first entry that is a proper ending of the word leaving strictly
more than one byte (word.size() > suf.size() + 1). -/
def strip_suffix (word : List Nat) : List (List Nat) → List Nat
  | [] => word
  | suf :: rest =>
    if suf.length + 1 < word.length ∧ suf.isSuffixOf word = true
    then word.take (word.length - suf.length)
    else strip_suffix word rest

/-- stem_token from stemmer.hpp: length-2-byte guard, Cyrillic heuristic,
then table-driven suffix stripping. -/
def stem_token (token : List Nat) : List Nat :=
  if token.length ≤ 2 then token
  else if has_cyrillic token then strip_suffix token ru_suffixes
  else strip_suffix token en_suffixes

/-- The inverted index (struct Index): ordered document table of external
id strings, and a postings map modelled as an association list from term
bytes to posting lists (one fixed iteration order standing in for the
unspecified unordered_map order). -/
structure Index where
  docs : List (List Nat)
  postings : List (List Nat × List Nat)
deriving DecidableEq

/-- set_and from builder.cpp, two-pointer intersection, with explicit fuel;
every loop iteration consumes at least one element, so fuel equal to the
sum of the lengths suffices. -/
def set_and_go : Nat → List Nat → List Nat → List Nat
  | _, [], _ => []
  | _, _ :: _, [] => []
  | 0, _ :: _, _ :: _ => []
  | fuel + 1, x :: xs, y :: ys =>
    if x = y then x :: set_and_go fuel xs ys
    else if x < y then set_and_go fuel xs (y :: ys)
    else set_and_go fuel (x :: xs) ys

/-- set_and from builder.cpp. -/
def set_and (a b : List Nat) : List Nat :=
  set_and_go (a.length + b.length) a b

/-- The duplicate-suppressing append of set_or: the output is kept in
reverse (head = most recently emitted value, the vector's back()). -/
def push_dedup (out : List Nat) (v : Nat) : List Nat :=
  match out with
  | [] => [v]
  | w :: _ => if w = v then out else v :: out

/-- set_or from builder.cpp, two-pointer union with consecutive-duplicate
suppression; the accumulator holds the emitted output in reverse. -/
def set_or_go : Nat → List Nat → List Nat → List Nat → List Nat
  | 0, _, _, out => out.reverse
  | _ + 1, [], [], out => out.reverse
  | fuel + 1, x :: xs, [], out => set_or_go fuel xs [] (push_dedup out x)
  | fuel + 1, [], y :: ys, out => set_or_go fuel [] ys (push_dedup out y)
  | fuel + 1, x :: xs, y :: ys, out =>
    if x ≤ y then set_or_go fuel xs (y :: ys) (push_dedup out x)
    else set_or_go fuel (x :: xs) ys (push_dedup out y)

/-- set_or from builder.cpp. -/
def set_or (a b : List Nat) : List Nat :=
  set_or_go (a.length + b.length) a b []

/-- set_not from builder.cpp: two-pointer difference of the universe
against b (when b is exhausted the remaining universe is appended). -/
def set_not_go : Nat → List Nat → List Nat → List Nat
  | _, [], _ => []
  | _, u :: us, [] => u :: us
  | 0, _ :: _, _ :: _ => []
  | fuel + 1, u :: us, v :: vs =>
    if u = v then set_not_go fuel us vs
    else if u < v then u :: set_not_go fuel us (v :: vs)
    else set_not_go fuel (u :: us) vs

/-- set_not from builder.cpp. -/
def set_not (univ b : List Nat) : List Nat :=
  set_not_go (univ.length + b.length) univ b

/-- Query tokens (struct Token with enum Op): a term carrying its bytes,
or one of the three operators. -/
inductive QTok
  | term (s : List Nat)
  | qand
  | qor
  | qnot
deriving DecidableEq

/-- precedence from builder.cpp: NOT is 2, AND is 1, anything else 0. -/
def precedence : QTok → Nat
  | .qnot => 2
  | .qand => 1
  | _ => 0

/-- The inner while loop of to_postfix: pop operators whose precedence is
at least the incoming precedence; returns the popped output and the
remaining operator stack (head = top). -/
def pop_ge (p : Nat) : List QTok → List QTok × List QTok
  | [] => ([], [])
  | o :: rest =>
    if p ≤ precedence o then
      let pr := pop_ge p rest
      (o :: pr.1, pr.2)
    else ([], o :: rest)

/-- The loop of to_postfix (shunting-yard): terms go to the output,
operators pop greater-or-equal-precedence operators first then push;
at the end the operator stack is drained top-first. -/
def to_rpn_go : List QTok → List QTok → List QTok
  | [], ops => ops
  | t :: ts, ops =>
    match t with
    | .term s => .term s :: to_rpn_go ts ops
    | op =>
      let pr := pop_ge (precedence op) ops
      pr.1 ++ to_rpn_go ts (op :: pr.2)

/-- to_postfix from builder.cpp. -/
def to_rpn (infx : List QTok) : List QTok :=
  to_rpn_go infx []

/-- parse_query from builder.cpp: tokenize the raw query, map the words
and/or/not to operators, and stem the remaining words when stemming is on. -/
def parse_query (cfg : TokCfg) (use_stem : Bool) (raw : List Nat) : List QTok :=
  (tokenize cfg raw).map fun w =>
    if w = [97, 110, 100] then .qand
    else if w = [111, 114] then .qor
    else if w = [110, 111, 116] then .qnot
    else .term (if use_stem then stem_token w else w)

/-- postings_for from builder.cpp: the posting list of a term, or the empty
list when the term is absent. -/
def postings_for (idx : Index) (t : List Nat) : List Nat :=
  match idx.postings.find? (fun p => decide (p.1 = t)) with
  | some p => p.2
  | none => []

/-- evaluate from builder.cpp: a stack machine over the postfix tokens.
The operand stack is a list with its head as the vector's back(); the
source pops with no underflow check, so a pop from an empty stack is an
out-of-bounds access and is modelled as the result none. -/
def eval_rpn (idx : Index) : List QTok → List (List Nat) → Option (List Nat)
  | [], stk =>
    some (match stk with
          | [] => []
          | top :: _ => top)
  | t :: ts, stk =>
    match t with
    | .term s => eval_rpn idx ts (postings_for idx s :: stk)
    | .qnot =>
      match stk with
      | [] => none
      | a :: rest => eval_rpn idx ts (set_not (List.range idx.docs.length) a :: rest)
    | .qand =>
      match stk with
      | b :: a :: rest => eval_rpn idx ts (set_and a b :: rest)
      | _ => none
    | .qor =>
      match stk with
      | b :: a :: rest => eval_rpn idx ts (set_or a b :: rest)
      | _ => none

/-- The escape mapping of decode_json_string: backslash-quote, backslash,
n, t, r decode to their characters, any other escaped byte to itself. -/
def esc_byte (e : Nat) : Nat :=
  if e = 34 then 34
  else if e = 92 then 92
  else if e = 110 then 10
  else if e = 116 then 9
  else if e = 114 then 13
  else e

/-- The loop of decode_json_string after the opening quote: consume bytes
until an unescaped closing quote; running off the end fails (false). -/
def decode_json_body : List Nat → Option (List Nat)
  | [] => none
  | c :: rest =>
    if c = 92 then
      match rest with
      | [] => none
      | e :: rest2 => (decode_json_body rest2).map (esc_byte e :: ·)
    else if c = 34 then some []
    else (decode_json_body rest).map (c :: ·)

/-- decode_json_string from builder.cpp, applied at a position that must
hold the opening quote. -/
def decode_json_string (s : List Nat) : Option (List Nat) :=
  match s with
  | 34 :: rest => decode_json_body rest
  | _ => none

/-- Substring search from a suffix, returning the offset of the first
position where pat is a prefix (std::string::find core loop). -/
def find_sub_go (s pat : List Nat) (ix : Nat) : Option Nat :=
  match s with
  | [] => if pat = [] then some ix else none
  | _ :: rest =>
    if pat.isPrefixOf s = true then some ix else find_sub_go rest pat (ix + 1)

/-- std::string::find(pat, start): absolute index of the first occurrence
of pat at or after start. -/
def find_from (s pat : List Nat) (start : Nat) : Option Nat :=
  (find_sub_go (s.drop start) pat 0).map (· + start)

/-- std::isspace for the ASCII bytes the corpus reader can meet. -/
def is_space_byte (c : Nat) : Bool :=
  decide (c = 32 ∨ c = 9 ∨ c = 10 ∨ c = 11 ∨ c = 12 ∨ c = 13)

/-- The whitespace-skipping loop of extract_field: first position at or
after p whose byte is not a space. -/
def skip_space (s : List Nat) (p : Nat) : Nat :=
  p + ((s.drop p).takeWhile is_space_byte).length

/-- extract_field from builder.cpp: locate the quoted key, the following
colon, skip spaces, move to the first quote, and decode one string. -/
def extract_field (line key : List Nat) : Option (List Nat) :=
  let pattern := 34 :: key ++ [34]
  match find_from line pattern 0 with
  | none => none
  | some p =>
    match find_from line [58] (p + pattern.length) with
    | none => none
    | some q =>
      let r := skip_space line q
      if line.length ≤ r then none
      else
        match find_from line [34] r with
        | none => none
        | some qt => decode_json_string (line.drop qt)

/-- The bytes of the field name id. -/
def id_key : List Nat := [105, 100]

/-- The bytes of the field name text. -/
def text_key : List Nat := [116, 101, 120, 116]

/-- Insertion into the postings map (unordered_map operator[] followed by
push_back): append the doc id to the term's list, creating the entry at
the end of the association list when the term is new. -/
def posting_add : List (List Nat × List Nat) → List Nat → Nat → List (List Nat × List Nat)
  | [], t, d => [(t, [d])]
  | (k, v) :: rest, t, d =>
    if k = t then (k, v ++ [d]) :: rest else (k, v) :: posting_add rest t d

/-- The loop of add_postings from builder.cpp: stem when enabled, skip
empty terms, and deduplicate terms within the document via the seen set. -/
def add_postings_go (use_stem : Bool) (doc_id : Nat) :
    List (List Nat) → List (List Nat) → List (List Nat × List Nat) → List (List Nat × List Nat)
  | [], _, postings => postings
  | tok :: toks, seen, postings =>
    let term := if use_stem then stem_token tok else tok
    if term = [] then add_postings_go use_stem doc_id toks seen postings
    else if term ∈ seen then add_postings_go use_stem doc_id toks seen postings
    else add_postings_go use_stem doc_id toks (term :: seen) (posting_add postings term doc_id)

/-- add_postings from builder.cpp. -/
def add_postings (postings : List (List Nat × List Nat)) (doc_id : Nat)
    (tokens : List (List Nat)) (use_stem : Bool) : List (List Nat × List Nat) :=
  add_postings_go use_stem doc_id tokens [] postings

/-- The mutable state of the builder main loop: document table, postings
map under construction, and the next document id counter. -/
structure BState where
  docs : List (List Nat)
  postings : List (List Nat × List Nat)
  next_id : Nat
deriving DecidableEq

/-- The empty builder state. -/
def init_state : BState :=
  { docs := [], postings := [], next_id := 0 }

/-- One iteration of the corpus read loop in builder main: skip empty
lines and lines from which id or text cannot be extracted; otherwise
append the document, insert its postings, and advance the id counter. -/
def process_line (use_stem : Bool) (st : BState) (line : List Nat) : BState :=
  if line = [] then st
  else
    match extract_field line id_key with
    | none => st
    | some doc_ext_id =>
      match extract_field line text_key with
      | none => st
      | some text =>
        { docs := st.docs ++ [doc_ext_id]
          postings := add_postings st.postings st.next_id (tokenize search_cfg text) use_stem
          next_id := st.next_id + 1 }

/-- The corpus read loop of builder main over all lines. -/
def build_go (use_stem : Bool) (lines : List (List Nat)) : BState :=
  lines.foldl (process_line use_stem) init_state

/-- std::unique followed by erase: remove consecutive duplicates. -/
def unique_adj : List Nat → List Nat
  | [] => []
  | [x] => [x]
  | x :: y :: rest =>
    if x = y then unique_adj (y :: rest) else x :: unique_adj (y :: rest)

/-- The finalization pass of builder main: sort every posting list
ascending (std::sort) and remove consecutive duplicates (std::unique). -/
def finalize_postings (ps : List (List Nat × List Nat)) : List (List Nat × List Nat) :=
  ps.map fun p => (p.1, unique_adj (p.2.insertionSort (· ≤ ·)))

/-- The full builder pipeline on a list of corpus lines: read loop, then
mandatory finalization, yielding the in-memory index. -/
def build_index (lines : List (List Nat)) (use_stem : Bool) : Index :=
  let st := build_go use_stem lines
  { docs := st.docs, postings := finalize_postings st.postings }

/-- Little-endian byte serialization of a 32-bit value (write_uint32; a
wider Nat is truncated exactly as the uint32_t cast truncates). -/
def u32le (v : Nat) : List Nat :=
  [v % 256, v / 256 % 256, v / 65536 % 256, v / 16777216 % 256]

/-- write_string from builder.cpp: 32-bit length then the raw bytes. -/
def write_string (s : List Nat) : List Nat :=
  u32le s.length ++ s

/-- The magic bytes BIDX1. -/
def magic_bytes : List Nat := [66, 73, 68, 88, 49]

/-- save_index from builder.cpp: magic, doc count, term count, the
document id strings in table order, then every postings entry (term,
length, ids) in map iteration order. -/
def save_index (idx : Index) : List Nat :=
  magic_bytes ++ u32le idx.docs.length ++ u32le idx.postings.length
    ++ idx.docs.flatMap write_string
    ++ idx.postings.flatMap fun p =>
         write_string p.1 ++ u32le p.2.length ++ p.2.flatMap u32le

/-- read_uint32 from builder.cpp: consume four bytes, little-endian;
end of stream before four bytes is a truncated read (none). -/
def read_u32 : List Nat → Option (Nat × List Nat)
  | b0 :: b1 :: b2 :: b3 :: rest => some (b0 + 256 * b1 + 65536 * b2 + 16777216 * b3, rest)
  | _ => none

/-- Consume exactly n bytes; end of stream first is a truncated read. -/
def read_exact (n : Nat) (s : List Nat) : Option (List Nat × List Nat) :=
  if n ≤ s.length then some (s.take n, s.drop n) else none

/-- read_string from builder.cpp: 32-bit length then that many bytes. -/
def read_string (s : List Nat) : Option (List Nat × List Nat) :=
  match read_u32 s with
  | none => none
  | some (len, rest) => read_exact len rest

/-- The doc-table read loop of load_index: n length-prefixed strings. -/
def read_strings : Nat → List Nat → Option (List (List Nat) × List Nat)
  | 0, s => some ([], s)
  | n + 1, s =>
    match read_string s with
    | none => none
    | some (x, rest) =>
      match read_strings n rest with
      | none => none
      | some (xs, rest2) => some (x :: xs, rest2)

/-- Reading n raw 32-bit values (the posting-list payload). -/
def read_u32s : Nat → List Nat → Option (List Nat × List Nat)
  | 0, s => some ([], s)
  | n + 1, s =>
    match read_u32 s with
    | none => none
    | some (x, rest) =>
      match read_u32s n rest with
      | none => none
      | some (xs, rest2) => some (x :: xs, rest2)

/-- The postings read loop of load_index: n entries of term, length, ids. -/
def read_entries : Nat → List Nat → Option (List (List Nat × List Nat) × List Nat)
  | 0, s => some ([], s)
  | n + 1, s =>
    match read_string s with
    | none => none
    | some (term, r1) =>
      match read_u32 r1 with
      | none => none
      | some (len, r2) =>
        match read_u32s len r2 with
        | none => none
        | some (plist, r3) =>
          match read_entries n r3 with
          | none => none
          | some (es, r4) => some ((term, plist) :: es, r4)

/-- load_index from builder.cpp: check the magic, read both counts, the
document table, and the postings entries (trailing bytes are ignored, as
the source never checks for them). -/
def load_index (s : List Nat) : Option Index :=
  match read_exact 5 s with
  | none => none
  | some (m, s1) =>
    if m = magic_bytes then
      match read_u32 s1 with
      | none => none
      | some (dc, s2) =>
        match read_u32 s2 with
        | none => none
        | some (tc, s3) =>
          match read_strings dc s3 with
          | none => none
          | some (docs, s4) =>
            match read_entries tc s4 with
            | none => none
            | some (posts, _) => some { docs := docs, postings := posts }
    else none

/-- All counts, string lengths and posting values of an index fit in an
unsigned 32-bit integer, so no uint32_t cast in the codec truncates. -/
def sizes_ok (idx : Index) : Bool :=
  decide (idx.docs.length < 4294967296) &&
  decide (idx.postings.length < 4294967296) &&
  idx.docs.all (fun d => decide (d.length < 4294967296)) &&
  idx.postings.all fun p =>
    decide (p.1.length < 4294967296) &&
    decide (p.2.length < 4294967296) &&
    p.2.all fun x => decide (x < 4294967296)

/-- Spec-words reformulation of the stemmer (byte-based reading): strip
the first table entry, in declared order, that is an ending of the term
and leaves a remainder strictly longer than one byte; compared below with
the source translation stem_token. -/
def stem_by_first_match (token : List Nat) : List Nat :=
  if token.length ≤ 2 then token
  else
    let table := if has_cyrillic token then ru_suffixes else en_suffixes
    match table.find? (fun suf =>
        decide (suf.length + 1 < token.length) && suf.isSuffixOf token) with
    | some suf => token.take (token.length - suf.length)
    | none => token

/-- The stemmer exactly as the claim words it (character-based reading):
strip the first table entry, in declared order, that is an ending of the
term and leaves a remainder strictly longer than one character (UTF-8
codepoint count); compared below with the source translation stem_token. -/
def stem_claim_chars (token : List Nat) : List Nat :=
  if token.length ≤ 2 then token
  else
    let table := if has_cyrillic token then ru_suffixes else en_suffixes
    match table.find? (fun suf =>
        decide (1 < utf8_char_count (token.take (token.length - suf.length))) &&
        suf.isSuffixOf token) with
    | some suf => token.take (token.length - suf.length)
    | none => token

/-- The successful-parse view of one corpus line: the extracted id and
text fields, or none when the builder loop skips the line. -/
def parse_rec (line : List Nat) : Option (List Nat × List Nat) :=
  if line = [] then none
  else
    match extract_field line id_key with
    | none => none
    | some i =>
      match extract_field line text_key with
      | none => none
      | some t => some (i, t)

/-- A posting list is strictly increasing and every entry is a valid
document id below n. -/
def sorted_bounded (n : Nat) (l : List Nat) : Prop :=
  l.Pairwise (· < ·) ∧ ∀ x ∈ l, x < n

instance (n : Nat) (l : List Nat) : Decidable (sorted_bounded n l) := by
  unfold sorted_bounded; infer_instance

/-- Every posting list of the index is strictly increasing with entries
below the document count. -/
def index_ok (idx : Index) : Prop :=
  ∀ p ∈ idx.postings, sorted_bounded idx.docs.length p.2

instance (idx : Index) : Decidable (index_ok idx) := by
  unfold index_ok; infer_instance

/-- A demo corpus line (the bytes of one id/text JSONL record). -/
def demo_line1 : List Nat :=
  [123, 34, 105, 100, 34, 58, 34, 100, 49, 34, 44,
   34, 116, 101, 120, 116, 34, 58, 34, 97, 98, 32, 99, 100, 34, 125]

/-- A second demo corpus line sharing the term cd with the first. -/
def demo_line2 : List Nat :=
  [123, 34, 105, 100, 34, 58, 34, 100, 50, 34, 44,
   34, 116, 101, 120, 116, 34, 58, 34, 99, 100, 34, 125]

/-- set_and only ever emits the current head of its first argument and
moves forward, so its output is a sublist of the first argument. -/
theorem set_and_go_sublist (fuel : Nat) :
    ∀ a b : List Nat, List.Sublist (set_and_go fuel a b) a := by
  induction fuel with
  | zero =>
    intro a b
    cases a with
    | nil => simp [set_and_go]
    | cons x xs => cases b <;> simp [set_and_go]
  | succ f ih =>
    intro a b
    cases a with
    | nil => simp [set_and_go]
    | cons x xs =>
      cases b with
      | nil => simp [set_and_go]
      | cons y ys =>
        simp only [set_and_go]
        by_cases h : x = y
        · simp only [if_pos h]
          exact (ih xs ys).cons₂ x
        · simp only [if_neg h]
          by_cases h2 : x < y
          · simp only [if_pos h2]
            exact (ih xs (y :: ys)).cons x
          · simp only [if_neg h2]
            exact ih (x :: xs) ys

/-- Every value emitted by set_and is a member of the second argument. -/
theorem mem_of_mem_set_and_go (fuel : Nat) :
    ∀ a b z, z ∈ set_and_go fuel a b → z ∈ b := by
  induction fuel with
  | zero =>
    intro a b z hz
    cases a with
    | nil => simp [set_and_go] at hz
    | cons x xs => cases b <;> simp [set_and_go] at hz
  | succ f ih =>
    intro a b z hz
    cases a with
    | nil => simp [set_and_go] at hz
    | cons x xs =>
      cases b with
      | nil => simp [set_and_go] at hz
      | cons y ys =>
        simp only [set_and_go] at hz
        by_cases h : x = y
        · simp only [if_pos h] at hz
          rcases List.mem_cons.mp hz with hz | hz
          · exact hz ▸ h ▸ List.mem_cons_self y ys
          · exact List.mem_cons_of_mem y (ih xs ys z hz)
        · simp only [if_neg h] at hz
          by_cases h2 : x < y
          · simp only [if_pos h2] at hz
            exact ih xs (y :: ys) z hz
          · simp only [if_neg h2] at hz
            exact List.mem_cons_of_mem y (ih (x :: xs) ys z hz)

/-- set_not only ever emits the current head of the universe argument and
moves forward, so its output is a sublist of the universe. -/
theorem set_not_go_sublist (fuel : Nat) :
    ∀ u b : List Nat, List.Sublist (set_not_go fuel u b) u := by
  induction fuel with
  | zero =>
    intro u b
    cases u with
    | nil => simp [set_not_go]
    | cons x xs => cases b <;> simp [set_not_go]
  | succ f ih =>
    intro u b
    cases u with
    | nil => simp [set_not_go]
    | cons x xs =>
      cases b with
      | nil => simp [set_not_go]
      | cons y ys =>
        simp only [set_not_go]
        by_cases h : x = y
        · simp only [if_pos h]
          exact (ih xs ys).cons x
        · simp only [if_neg h]
          by_cases h2 : x < y
          · simp only [if_pos h2]
            exact (ih xs (y :: ys)).cons₂ x
          · simp only [if_neg h2]
            exact ih (x :: xs) ys

/-- On sorted inputs, set_not computes exactly the members of the universe
that are not members of b. -/
theorem mem_set_not_go (fuel : Nat) :
    ∀ u b, u.length + b.length ≤ fuel → u.Pairwise (· < ·) → b.Pairwise (· < ·) →
      ∀ z, z ∈ set_not_go fuel u b ↔ z ∈ u ∧ z ∉ b := by
  induction fuel with
  | zero =>
    intro u b hlen _ _ z
    have hu : u = [] := List.length_eq_zero.mp (by omega)
    have hb : b = [] := List.length_eq_zero.mp (by omega)
    subst hu; subst hb
    simp [set_not_go]
  | succ f ih =>
    intro u b hlen hu hb z
    cases u with
    | nil => simp [set_not_go]
    | cons x xs =>
      cases b with
      | nil => simp [set_not_go]
      | cons y ys =>
        have hxs : ∀ w ∈ xs, x < w := fun w hw => List.rel_of_pairwise_cons hu hw
        have hys : ∀ w ∈ ys, y < w := fun w hw => List.rel_of_pairwise_cons hb hw
        have hu2 : xs.Pairwise (· < ·) := hu.of_cons
        have hb2 : ys.Pairwise (· < ·) := hb.of_cons
        have hlen1 : xs.length + ys.length ≤ f := by
          simp only [List.length_cons] at hlen; omega
        simp only [set_not_go]
        by_cases h : x = y
        · simp only [if_pos h]
          rw [ih xs ys (by simp only [List.length_cons] at hlen; omega) hu2 hb2 z]
          subst h
          constructor
          · rintro ⟨hz1, hz2⟩
            refine ⟨List.mem_cons_of_mem _ hz1, ?_⟩
            intro hc
            rcases List.mem_cons.mp hc with rfl | hc
            · exact absurd (hxs z hz1) (lt_irrefl z)
            · exact hz2 hc
          · rintro ⟨hz1, hz2⟩
            rcases List.mem_cons.mp hz1 with rfl | hz1
            · exact absurd (List.mem_cons_self z ys) hz2
            · exact ⟨hz1, fun hc => hz2 (List.mem_cons_of_mem _ hc)⟩
        · simp only [if_neg h]
          by_cases h2 : x < y
          · simp only [if_pos h2, List.mem_cons,
              ih xs (y :: ys) (by simp only [List.length_cons] at hlen ⊢; omega) hu2 hb]
            constructor
            · rintro (rfl | ⟨hz1, hz2⟩)
              · refine ⟨Or.inl rfl, ?_⟩
                rintro (rfl | hc)
                · exact lt_irrefl z h2
                · exact lt_irrefl z (lt_trans h2 (hys z hc))
              · exact ⟨Or.inr hz1, hz2⟩
            · rintro ⟨rfl | hz1, hz2⟩
              · exact Or.inl rfl
              · exact Or.inr ⟨hz1, hz2⟩
          · simp only [if_neg h2]
            have hyx : y < x := by omega
            rw [ih (x :: xs) ys (by simp only [List.length_cons] at hlen ⊢; omega) hu hb2]
            constructor
            · rintro ⟨hz1, hz2⟩
              refine ⟨hz1, ?_⟩
              intro hc
              rcases List.mem_cons.mp hc with rfl | hc
              · rcases List.mem_cons.mp hz1 with rfl | hz1
                · exact absurd hyx (lt_irrefl z)
                · exact absurd (lt_trans hyx (hxs z hz1)) (lt_irrefl z)
              · exact hz2 hc
            · rintro ⟨hz1, hz2⟩
              exact ⟨hz1, fun hc => hz2 (List.mem_cons_of_mem _ hc)⟩

/-- Two strictly increasing lists with the same members are equal. -/
theorem pairwise_lt_ext :
    ∀ l₁ l₂ : List Nat, l₁.Pairwise (· < ·) → l₂.Pairwise (· < ·) →
      (∀ z, z ∈ l₁ ↔ z ∈ l₂) → l₁ = l₂ := by
  intro l₁
  induction l₁ with
  | nil =>
    intro l₂ _ _ h
    cases l₂ with
    | nil => rfl
    | cons y ys => exact absurd ((h y).mpr (List.mem_cons_self y ys)) (List.not_mem_nil y)
  | cons x xs ih =>
    intro l₂ h₁ h₂ h
    cases l₂ with
    | nil => exact absurd ((h x).mp (List.mem_cons_self x xs)) (List.not_mem_nil x)
    | cons y ys =>
      have hx : ∀ w ∈ xs, x < w := fun w hw => List.rel_of_pairwise_cons h₁ hw
      have hy : ∀ w ∈ ys, y < w := fun w hw => List.rel_of_pairwise_cons h₂ hw
      have hxy : x = y := by
        rcases List.mem_cons.mp ((h x).mp (List.mem_cons_self x xs)) with hcx | hcx
        · exact hcx
        · rcases List.mem_cons.mp ((h y).mpr (List.mem_cons_self y ys)) with hcy | hcy
          · exact hcy.symm
          · exact absurd (lt_trans (hy x hcx) (hx y hcy)) (lt_irrefl y)
      subst hxy
      have htl : ∀ z, z ∈ xs ↔ z ∈ ys := by
        intro z
        constructor
        · intro hz
          rcases List.mem_cons.mp ((h z).mp (List.mem_cons_of_mem _ hz)) with rfl | hz2
          · exact absurd (hx z hz) (lt_irrefl z)
          · exact hz2
        · intro hz
          rcases List.mem_cons.mp ((h z).mpr (List.mem_cons_of_mem _ hz)) with rfl | hz2
          · exact absurd (hy z hz) (lt_irrefl z)
          · exact hz2
      rw [ih ys h₁.of_cons h₂.of_cons htl]

/-- The value just appended is always in the output of push_dedup (either
it was pushed, or it equals the suppressed duplicate at the back). -/
theorem mem_push_dedup_self (out : List Nat) (v : Nat) : v ∈ push_dedup out v := by
  cases out with
  | nil => simp [push_dedup]
  | cons w rest =>
    simp only [push_dedup]
    by_cases h : w = v
    · simp [if_pos h, h.symm]
    · simp [if_neg h]

/-- push_dedup never removes previously emitted values. -/
theorem mem_push_dedup_of_mem (out : List Nat) (v z : Nat) (h : z ∈ out) :
    z ∈ push_dedup out v := by
  cases out with
  | nil => simp at h
  | cons w rest =>
    simp only [push_dedup]
    by_cases hw : w = v
    · simp only [if_pos hw]; exact h
    · simp only [if_neg hw]; exact List.mem_cons_of_mem v h

/-- Every value in the output of push_dedup is the appended value or an
already emitted one. -/
theorem mem_of_mem_push_dedup (out : List Nat) (v z : Nat)
    (h : z ∈ push_dedup out v) : z = v ∨ z ∈ out := by
  cases out with
  | nil => simpa [push_dedup] using h
  | cons w rest =>
    simp only [push_dedup] at h
    by_cases hw : w = v
    · simp only [if_pos hw] at h; exact Or.inr h
    · simp only [if_neg hw] at h
      rcases List.mem_cons.mp h with rfl | h
      · exact Or.inl rfl
      · exact Or.inr h

/-- push_dedup keeps the reversed output strictly decreasing when the
appended value is at least the last emitted one. -/
theorem push_dedup_pairwise (out : List Nat) (v : Nat)
    (h : out.Pairwise (fun p q => q < p)) (hb : ∀ w ∈ out, w ≤ v) :
    (push_dedup out v).Pairwise (fun p q => q < p) := by
  cases out with
  | nil => simp [push_dedup]
  | cons w rest =>
    simp only [push_dedup]
    by_cases hw : w = v
    · simp only [if_pos hw]; exact h
    · simp only [if_neg hw]
      refine List.Pairwise.cons ?_ h
      intro z hz
      rcases List.mem_cons.mp hz with rfl | hz
      · exact lt_of_le_of_ne (hb z (List.mem_cons_self z rest)) hw
      · have h1 : z < w := List.rel_of_pairwise_cons h hz
        exact lt_of_lt_of_le h1 (hb w (List.mem_cons_self w rest))

/-- Already emitted values survive to the final output of set_or. -/
theorem mem_set_or_go_of_out (fuel : Nat) :
    ∀ a b out z, z ∈ out → z ∈ set_or_go fuel a b out := by
  induction fuel with
  | zero => intro a b out z hz; simpa [set_or_go] using hz
  | succ f ih =>
    intro a b out z hz
    cases a with
    | nil =>
      cases b with
      | nil => simpa [set_or_go] using hz
      | cons y ys =>
        simp only [set_or_go]
        exact ih [] ys _ z (mem_push_dedup_of_mem out y z hz)
    | cons x xs =>
      cases b with
      | nil =>
        simp only [set_or_go]
        exact ih xs [] _ z (mem_push_dedup_of_mem out x z hz)
      | cons y ys =>
        simp only [set_or_go]
        by_cases h : x ≤ y
        · simp only [if_pos h]
          exact ih xs (y :: ys) _ z (mem_push_dedup_of_mem out x z hz)
        · simp only [if_neg h]
          exact ih (x :: xs) ys _ z (mem_push_dedup_of_mem out y z hz)

/-- Every member of the first argument appears in the output of set_or. -/
theorem mem_set_or_go_left (fuel : Nat) :
    ∀ a b out z, a.length + b.length ≤ fuel → z ∈ a → z ∈ set_or_go fuel a b out := by
  induction fuel with
  | zero =>
    intro a b out z hlen hz
    have : a = [] := List.length_eq_zero.mp (by omega)
    subst this; simp at hz
  | succ f ih =>
    intro a b out z hlen hz
    cases a with
    | nil => simp at hz
    | cons x xs =>
      cases b with
      | nil =>
        simp only [set_or_go]
        rcases List.mem_cons.mp hz with rfl | hz
        · exact mem_set_or_go_of_out f xs [] _ z (mem_push_dedup_self out z)
        · exact ih xs [] _ z (by simp only [List.length_cons] at hlen ⊢; omega) hz
      | cons y ys =>
        simp only [set_or_go]
        by_cases h : x ≤ y
        · simp only [if_pos h]
          rcases List.mem_cons.mp hz with rfl | hz
          · exact mem_set_or_go_of_out f xs (y :: ys) _ z (mem_push_dedup_self out z)
          · exact ih xs (y :: ys) _ z (by simp only [List.length_cons] at hlen ⊢; omega) hz
        · simp only [if_neg h]
          exact ih (x :: xs) ys _ z (by simp only [List.length_cons] at hlen ⊢; omega) hz

/-- Every member of the second argument appears in the output of set_or. -/
theorem mem_set_or_go_right (fuel : Nat) :
    ∀ a b out z, a.length + b.length ≤ fuel → z ∈ b → z ∈ set_or_go fuel a b out := by
  induction fuel with
  | zero =>
    intro a b out z hlen hz
    have : b = [] := List.length_eq_zero.mp (by omega)
    subst this; simp at hz
  | succ f ih =>
    intro a b out z hlen hz
    cases b with
    | nil => simp at hz
    | cons y ys =>
      cases a with
      | nil =>
        simp only [set_or_go]
        rcases List.mem_cons.mp hz with rfl | hz
        · exact mem_set_or_go_of_out f [] ys _ z (mem_push_dedup_self out z)
        · exact ih [] ys _ z (by simp only [List.length_cons] at hlen ⊢; omega) hz
      | cons x xs =>
        simp only [set_or_go]
        by_cases h : x ≤ y
        · simp only [if_pos h]
          exact ih xs (y :: ys) _ z (by simp only [List.length_cons] at hlen ⊢; omega) hz
        · simp only [if_neg h]
          rcases List.mem_cons.mp hz with rfl | hz
          · exact mem_set_or_go_of_out f (x :: xs) ys _ z (mem_push_dedup_self out z)
          · exact ih (x :: xs) ys _ z (by simp only [List.length_cons] at hlen ⊢; omega) hz

/-- Every value in the output of set_or came from one of the two inputs or
from the already emitted accumulator. -/
theorem mem_of_mem_set_or_go (fuel : Nat) :
    ∀ a b out z, z ∈ set_or_go fuel a b out → z ∈ a ∨ z ∈ b ∨ z ∈ out := by
  induction fuel with
  | zero =>
    intro a b out z hz
    simp only [set_or_go, List.mem_reverse] at hz
    exact Or.inr (Or.inr hz)
  | succ f ih =>
    intro a b out z hz
    cases a with
    | nil =>
      cases b with
      | nil =>
        simp only [set_or_go, List.mem_reverse] at hz
        exact Or.inr (Or.inr hz)
      | cons y ys =>
        simp only [set_or_go] at hz
        rcases ih [] ys _ z hz with h | h | h
        · simp at h
        · exact Or.inr (Or.inl (List.mem_cons_of_mem y h))
        · rcases mem_of_mem_push_dedup out y z h with rfl | h
          · exact Or.inr (Or.inl (List.mem_cons_self z ys))
          · exact Or.inr (Or.inr h)
    | cons x xs =>
      cases b with
      | nil =>
        simp only [set_or_go] at hz
        rcases ih xs [] _ z hz with h | h | h
        · exact Or.inl (List.mem_cons_of_mem x h)
        · simp at h
        · rcases mem_of_mem_push_dedup out x z h with rfl | h
          · exact Or.inl (List.mem_cons_self z xs)
          · exact Or.inr (Or.inr h)
      | cons y ys =>
        simp only [set_or_go] at hz
        by_cases h : x ≤ y
        · simp only [if_pos h] at hz
          rcases ih xs (y :: ys) _ z hz with h1 | h1 | h1
          · exact Or.inl (List.mem_cons_of_mem x h1)
          · exact Or.inr (Or.inl h1)
          · rcases mem_of_mem_push_dedup out x z h1 with rfl | h1
            · exact Or.inl (List.mem_cons_self z xs)
            · exact Or.inr (Or.inr h1)
        · simp only [if_neg h] at hz
          rcases ih (x :: xs) ys _ z hz with h1 | h1 | h1
          · exact Or.inl h1
          · exact Or.inr (Or.inl (List.mem_cons_of_mem y h1))
          · rcases mem_of_mem_push_dedup out y z h1 with rfl | h1
            · exact Or.inr (Or.inl (List.mem_cons_self z ys))
            · exact Or.inr (Or.inr h1)

/-- The merge loop of set_or keeps the reversed accumulator strictly
decreasing and below every pending input value, so the final output is
strictly increasing. -/
theorem set_or_go_pairwise (fuel : Nat) :
    ∀ a b out, a.length + b.length ≤ fuel →
      a.Pairwise (· < ·) → b.Pairwise (· < ·) →
      out.Pairwise (fun p q => q < p) →
      (∀ w ∈ out, ∀ z ∈ a, w ≤ z) → (∀ w ∈ out, ∀ z ∈ b, w ≤ z) →
      (set_or_go fuel a b out).Pairwise (· < ·) := by
  induction fuel with
  | zero =>
    intro a b out _ _ _ hout _ _
    simp only [set_or_go]
    exact List.pairwise_reverse.mpr hout
  | succ f ih =>
    intro a b out hlen ha hb hout houta houtb
    cases a with
    | nil =>
      cases b with
      | nil =>
        simp only [set_or_go]
        exact List.pairwise_reverse.mpr hout
      | cons y ys =>
        simp only [set_or_go]
        have hys : ∀ w ∈ ys, y < w := fun w hw => List.rel_of_pairwise_cons hb hw
        refine ih [] ys _ (by simp only [List.length_cons] at hlen ⊢; omega)
          ha hb.of_cons
          (push_dedup_pairwise out y hout
            (fun w hw => houtb w hw y (List.mem_cons_self y ys)))
          (by intro w _ z hz; simp at hz) ?_
        intro w hw z hz
        rcases mem_of_mem_push_dedup out y w hw with rfl | hw
        · exact le_of_lt (hys z hz)
        · exact houtb w hw z (List.mem_cons_of_mem y hz)
    | cons x xs =>
      have hxs : ∀ w ∈ xs, x < w := fun w hw => List.rel_of_pairwise_cons ha hw
      cases b with
      | nil =>
        simp only [set_or_go]
        refine ih xs [] _ (by simp only [List.length_cons] at hlen ⊢; omega)
          ha.of_cons hb
          (push_dedup_pairwise out x hout
            (fun w hw => houta w hw x (List.mem_cons_self x xs))) ?_
          (by intro w _ z hz; simp at hz)
        intro w hw z hz
        rcases mem_of_mem_push_dedup out x w hw with rfl | hw
        · exact le_of_lt (hxs z hz)
        · exact houta w hw z (List.mem_cons_of_mem x hz)
      | cons y ys =>
        have hys : ∀ w ∈ ys, y < w := fun w hw => List.rel_of_pairwise_cons hb hw
        simp only [set_or_go]
        by_cases h : x ≤ y
        · simp only [if_pos h]
          refine ih xs (y :: ys) _ (by simp only [List.length_cons] at hlen ⊢; omega)
            ha.of_cons hb
            (push_dedup_pairwise out x hout
              (fun w hw => houta w hw x (List.mem_cons_self x xs))) ?_ ?_
          · intro w hw z hz
            rcases mem_of_mem_push_dedup out x w hw with rfl | hw
            · exact le_of_lt (hxs z hz)
            · exact houta w hw z (List.mem_cons_of_mem x hz)
          · intro w hw z hz
            rcases mem_of_mem_push_dedup out x w hw with rfl | hw
            · rcases List.mem_cons.mp hz with rfl | hz
              · exact h
              · exact le_of_lt (lt_of_le_of_lt h (hys z hz))
            · exact houtb w hw z hz
        · simp only [if_neg h]
          have hyx : y < x := by omega
          refine ih (x :: xs) ys _ (by simp only [List.length_cons] at hlen ⊢; omega)
            ha hb.of_cons
            (push_dedup_pairwise out y hout
              (fun w hw => houtb w hw y (List.mem_cons_self y ys))) ?_ ?_
          · intro w hw z hz
            rcases mem_of_mem_push_dedup out y w hw with rfl | hw
            · rcases List.mem_cons.mp hz with rfl | hz
              · exact le_of_lt hyx
              · exact le_of_lt (lt_trans hyx (hxs z hz))
            · exact houta w hw z hz
          · intro w hw z hz
            rcases mem_of_mem_push_dedup out y w hw with rfl | hw
            · exact le_of_lt (hys z hz)
            · exact houtb w hw z (List.mem_cons_of_mem y hz)

/-- sorted_bounded is preserved by set_and. -/
theorem sorted_bounded_set_and (n : Nat) (a b : List Nat)
    (ha : sorted_bounded n a) : sorted_bounded n (set_and a b) := by
  refine ⟨ha.1.sublist (set_and_go_sublist _ a b), ?_⟩
  intro x hx
  exact ha.2 x ((set_and_go_sublist _ a b).subset hx)

/-- sorted_bounded is preserved by set_or. -/
theorem sorted_bounded_set_or (n : Nat) (a b : List Nat)
    (ha : sorted_bounded n a) (hb : sorted_bounded n b) :
    sorted_bounded n (set_or a b) := by
  constructor
  · exact set_or_go_pairwise _ a b [] (le_refl _) ha.1 hb.1 (by simp)
      (by intro w hw; simp at hw) (by intro w hw; simp at hw)
  · intro x hx
    rcases mem_of_mem_set_or_go _ a b [] x hx with h | h | h
    · exact ha.2 x h
    · exact hb.2 x h
    · simp at h

/-- sorted_bounded is preserved by set_not for any second argument. -/
theorem sorted_bounded_set_not (n : Nat) (u b : List Nat)
    (hu : sorted_bounded n u) : sorted_bounded n (set_not u b) := by
  refine ⟨hu.1.sublist (set_not_go_sublist _ u b), ?_⟩
  intro x hx
  exact hu.2 x ((set_not_go_sublist _ u b).subset hx)

/-- On sorted arguments set_not computes the complement within u. -/
theorem mem_set_not (u b : List Nat) (hu : u.Pairwise (· < ·))
    (hb : b.Pairwise (· < ·)) (z : Nat) :
    z ∈ set_not u b ↔ z ∈ u ∧ z ∉ b :=
  mem_set_not_go _ u b (le_refl _) hu hb z

/-- Double complement against a sorted universe restores any strictly
increasing list of universe members. -/
theorem set_not_involutive (u a : List Nat) (hu : u.Pairwise (· < ·))
    (ha : a.Pairwise (· < ·)) (hsub : ∀ z ∈ a, z ∈ u) :
    set_not u (set_not u a) = a := by
  have h1 : (set_not u a).Pairwise (· < ·) :=
    hu.sublist (set_not_go_sublist _ u a)
  have h2 : (set_not u (set_not u a)).Pairwise (· < ·) :=
    hu.sublist (set_not_go_sublist _ u (set_not u a))
  refine pairwise_lt_ext _ _ h2 ha ?_
  intro z
  rw [mem_set_not u (set_not u a) hu h1, mem_set_not u a hu ha]
  constructor
  · rintro ⟨hzu, hzn⟩
    by_contra hza
    exact hzn ⟨hzu, hza⟩
  · intro hza
    exact ⟨hsub z hza, fun hc => hc.2 hza⟩

/-- unique_adj only removes elements, so its output is a sublist. -/
theorem unique_adj_sublist : ∀ l : List Nat, List.Sublist (unique_adj l) l := by
  intro l
  induction l with
  | nil => simp [unique_adj]
  | cons x t ih =>
    cases t with
    | nil => simp [unique_adj]
    | cons y rest =>
      simp only [unique_adj]
      by_cases h : x = y
      · simp only [if_pos h]
        exact ih.cons x
      · simp only [if_neg h]
        exact ih.cons₂ x

/-- Removing consecutive duplicates from a weakly sorted list yields a
strictly increasing list. -/
theorem pairwise_lt_unique_adj :
    ∀ l : List Nat, l.Pairwise (· ≤ ·) → (unique_adj l).Pairwise (· < ·) := by
  intro l
  induction l with
  | nil => intro _; simp [unique_adj]
  | cons x t ih =>
    intro h
    cases t with
    | nil => simp [unique_adj]
    | cons y rest =>
      have hx : ∀ w ∈ y :: rest, x ≤ w := fun w hw => List.rel_of_pairwise_cons h hw
      have ht : (y :: rest).Pairwise (· ≤ ·) := h.of_cons
      have hy : ∀ w ∈ rest, y ≤ w := fun w hw => List.rel_of_pairwise_cons ht hw
      simp only [unique_adj]
      by_cases hxy : x = y
      · simp only [if_pos hxy]
        exact ih ht
      · simp only [if_neg hxy]
        refine List.Pairwise.cons ?_ (ih ht)
        intro z hz
        have hzm : z ∈ y :: rest := (unique_adj_sublist (y :: rest)).subset hz
        have hxy2 : x < y := lt_of_le_of_ne (hx y (List.mem_cons_self y rest)) hxy
        rcases List.mem_cons.mp hzm with rfl | hzm
        · exact hxy2
        · exact lt_of_lt_of_le hxy2 (hy z hzm)

/-- Looked-up posting lists of a well-formed index are sorted and bounded
(the empty list returned for absent terms trivially is). -/
theorem postings_for_ok (idx : Index) (h : index_ok idx) (t : List Nat) :
    sorted_bounded idx.docs.length (postings_for idx t) := by
  unfold postings_for
  cases hf : idx.postings.find? (fun p => decide (p.1 = t)) with
  | none => exact ⟨List.Pairwise.nil, by intro x hx; simp at hx⟩
  | some p => exact h p (List.mem_of_find?_eq_some hf)

/-- The stack invariant of the postfix evaluator: starting from a stack of
sorted bounded lists over a well-formed index, any successful evaluation
returns a sorted bounded list. -/
theorem eval_rpn_ok (idx : Index) (h : index_ok idx) :
    ∀ pf stk res, (∀ l ∈ stk, sorted_bounded idx.docs.length l) →
      eval_rpn idx pf stk = some res → sorted_bounded idx.docs.length res := by
  intro pf
  induction pf with
  | nil =>
    intro stk res hstk hres
    simp only [eval_rpn, Option.some.injEq] at hres
    cases stk with
    | nil => exact hres ▸ ⟨List.Pairwise.nil, by intro x hx; simp at hx⟩
    | cons top rest => exact hres ▸ hstk top (List.mem_cons_self top rest)
  | cons t ts ih =>
    intro stk res hstk hres
    cases t with
    | term s =>
      refine ih _ res ?_ hres
      intro l hl
      rcases List.mem_cons.mp hl with rfl | hl
      · exact postings_for_ok idx h s
      · exact hstk l hl
    | qnot =>
      cases stk with
      | nil => simp [eval_rpn] at hres
      | cons a rest =>
        refine ih _ res ?_ hres
        intro l hl
        rcases List.mem_cons.mp hl with rfl | hl
        · refine sorted_bounded_set_not _ _ _ ⟨List.pairwise_lt_range _, ?_⟩
          intro x hx
          exact List.mem_range.mp hx
        · exact hstk l (List.mem_cons_of_mem a hl)
    | qand =>
      cases stk with
      | nil => simp [eval_rpn] at hres
      | cons b rest =>
        cases rest with
        | nil => simp [eval_rpn] at hres
        | cons a rest2 =>
          refine ih _ res ?_ hres
          intro l hl
          rcases List.mem_cons.mp hl with rfl | hl
          · exact sorted_bounded_set_and _ _ _
              (hstk a (List.mem_cons_of_mem b (List.mem_cons_self a rest2)))
          · exact hstk l (List.mem_cons_of_mem b (List.mem_cons_of_mem a hl))
    | qor =>
      cases stk with
      | nil => simp [eval_rpn] at hres
      | cons b rest =>
        cases rest with
        | nil => simp [eval_rpn] at hres
        | cons a rest2 =>
          refine ih _ res ?_ hres
          intro l hl
          rcases List.mem_cons.mp hl with rfl | hl
          · exact sorted_bounded_set_or _ _ _
              (hstk a (List.mem_cons_of_mem b (List.mem_cons_self a rest2)))
              (hstk b (List.mem_cons_self b (a :: rest2)))
          · exact hstk l (List.mem_cons_of_mem b (List.mem_cons_of_mem a hl))

/-- Reading back four little-endian bytes restores any value below 2^32. -/
theorem read_u32_u32le (v : Nat) (rest : List Nat) (h : v < 4294967296) :
    read_u32 (u32le v ++ rest) = some (v, rest) := by
  simp only [u32le, List.cons_append, List.nil_append, read_u32,
    Option.some.injEq, Prod.mk.injEq, and_true]
  omega

/-- Reading exactly the length of a prefix returns that prefix. -/
theorem read_exact_append (l rest : List Nat) :
    read_exact l.length (l ++ rest) = some (l, rest) := by
  simp only [read_exact, List.length_append, List.take_left, List.drop_left,
    if_pos (Nat.le_add_right l.length rest.length)]

/-- Reading back a length-prefixed string restores it. -/
theorem read_string_write (s rest : List Nat) (h : s.length < 4294967296) :
    read_string (write_string s ++ rest) = some (s, rest) := by
  simp only [write_string, List.append_assoc, read_string,
    read_u32_u32le s.length (s ++ rest) h]
  exact read_exact_append s rest

/-- Reading back the concatenation of length-prefixed strings restores the
list of strings. -/
theorem read_strings_flat (docs : List (List Nat)) (rest : List Nat)
    (h : ∀ d ∈ docs, d.length < 4294967296) :
    read_strings docs.length (docs.flatMap write_string ++ rest) = some (docs, rest) := by
  induction docs with
  | nil => simp [read_strings]
  | cons d ds ih =>
    simp only [List.flatMap_cons, List.length_cons, List.append_assoc, read_strings]
    rw [read_string_write d _ (h d (List.mem_cons_self d ds))]
    dsimp only
    rw [ih (fun x hx => h x (List.mem_cons_of_mem d hx))]

/-- Reading back the concatenation of little-endian 32-bit values restores
the list of values when they all fit. -/
theorem read_u32s_flat (pl : List Nat) (rest : List Nat)
    (h : ∀ x ∈ pl, x < 4294967296) :
    read_u32s pl.length (pl.flatMap u32le ++ rest) = some (pl, rest) := by
  induction pl with
  | nil => simp [read_u32s]
  | cons x xs ih =>
    simp only [List.flatMap_cons, List.length_cons, List.append_assoc, read_u32s]
    rw [read_u32_u32le x _ (h x (List.mem_cons_self x xs))]
    dsimp only
    rw [ih (fun z hz => h z (List.mem_cons_of_mem x hz))]

/-- Reading back serialized postings entries restores them. -/
theorem read_entries_flat (ps : List (List Nat × List Nat)) (rest : List Nat)
    (h : ∀ p ∈ ps, p.1.length < 4294967296 ∧ p.2.length < 4294967296 ∧
      ∀ x ∈ p.2, x < 4294967296) :
    read_entries ps.length
      (ps.flatMap (fun p => write_string p.1 ++ (u32le p.2.length ++ p.2.flatMap u32le))
        ++ rest) = some (ps, rest) := by
  induction ps with
  | nil => simp [read_entries]
  | cons p ps ih =>
    obtain ⟨h1, h2, h3⟩ := h p (List.mem_cons_self p ps)
    simp only [List.flatMap_cons, List.length_cons, List.append_assoc, read_entries]
    rw [read_string_write p.1 _ h1]
    dsimp only
    rw [read_u32_u32le p.2.length _ h2]
    dsimp only
    rw [read_u32s_flat p.2 _ h3]
    dsimp only
    rw [ih (fun q hq => h q (List.mem_cons_of_mem p hq))]

/-- Saving and loading any index whose counts, lengths and posting values
fit in 32 bits restores it exactly. -/
theorem load_save_roundtrip (idx : Index) (h : sizes_ok idx = true) :
    load_index (save_index idx) = some idx := by
  simp only [sizes_ok, Bool.and_eq_true, decide_eq_true_eq, List.all_eq_true] at h
  obtain ⟨⟨⟨hdc, htc⟩, hdocs⟩, hposts⟩ := h
  have hposts2 : ∀ p ∈ idx.postings, p.1.length < 4294967296 ∧
      p.2.length < 4294967296 ∧ ∀ x ∈ p.2, x < 4294967296 := by
    intro p hp
    obtain ⟨⟨a, b⟩, c⟩ := hposts p hp
    exact ⟨a, b, c⟩
  unfold save_index load_index
  simp only [List.append_assoc]
  rw [show (5 : Nat) = magic_bytes.length from rfl, read_exact_append]
  dsimp only
  rw [if_pos rfl]
  rw [read_u32_u32le idx.docs.length _ hdc]
  dsimp only
  rw [read_u32_u32le idx.postings.length _ htc]
  dsimp only
  rw [read_strings_flat idx.docs _ hdocs]
  dsimp only
  rw [show (idx.postings.flatMap
        fun p => write_string p.1 ++ (u32le p.2.length ++ p.2.flatMap u32le)) =
      (idx.postings.flatMap
        fun p => write_string p.1 ++ (u32le p.2.length ++ p.2.flatMap u32le)) ++ []
    from (List.append_nil _).symm]
  rw [read_entries_flat idx.postings [] hposts2]

/-- A line that fails record extraction leaves the builder state
untouched: no document entry, no postings, no id increment. -/
theorem process_line_skip (flag : Bool) (st : BState) (line : List Nat)
    (h : parse_rec line = none) : process_line flag st line = st := by
  unfold parse_rec at h
  unfold process_line
  by_cases he : line = []
  · simp [if_pos he]
  · simp only [if_neg he] at h ⊢
    cases hid : extract_field line id_key with
    | none => rfl
    | some i =>
      simp only [hid] at h
      cases htx : extract_field line text_key with
      | none => rfl
      | some t => simp [htx] at h

/-- A line that parses appends exactly one document and advances the id
counter by one. -/
theorem process_line_parsed (flag : Bool) (st : BState) (line i t : List Nat)
    (h : parse_rec line = some (i, t)) :
    process_line flag st line =
      { docs := st.docs ++ [i]
        postings := add_postings st.postings st.next_id (tokenize search_cfg t) flag
        next_id := st.next_id + 1 } := by
  unfold parse_rec at h
  unfold process_line
  by_cases he : line = []
  · simp [if_pos he] at h
  · simp only [if_neg he] at h ⊢
    cases hid : extract_field line id_key with
    | none => simp [hid] at h
    | some i2 =>
      simp only [hid] at h
      cases htx : extract_field line text_key with
      | none => simp [htx] at h
      | some t2 =>
        simp only [htx, Option.some.injEq, Prod.mk.injEq] at h
        rw [h.1, h.2]

/-- The document table produced by the read loop lists exactly the ids of
the successfully parsed records, in order, after the initial table. -/
theorem foldl_process_docs (flag : Bool) :
    ∀ (lines : List (List Nat)) (st : BState),
      (lines.foldl (process_line flag) st).docs =
      st.docs ++ (lines.filterMap parse_rec).map Prod.fst := by
  intro lines
  induction lines with
  | nil => intro st; simp
  | cons l ls ih =>
    intro st
    simp only [List.foldl_cons]
    cases hp : parse_rec l with
    | none =>
      rw [process_line_skip flag st l hp, ih st,
        List.filterMap_cons_none hp]
    | some r =>
      rw [process_line_parsed flag st l r.1 r.2 (by simpa using hp), ih,
        List.filterMap_cons_some hp]
      simp

/-- The id counter of the read loop advances exactly once per successfully
parsed record. -/
theorem foldl_process_next_id (flag : Bool) :
    ∀ (lines : List (List Nat)) (st : BState),
      (lines.foldl (process_line flag) st).next_id =
      st.next_id + (lines.filterMap parse_rec).length := by
  intro lines
  induction lines with
  | nil => intro st; simp
  | cons l ls ih =>
    intro st
    simp only [List.foldl_cons]
    cases hp : parse_rec l with
    | none =>
      rw [process_line_skip flag st l hp, ih st,
        List.filterMap_cons_none hp]
    | some r =>
      rw [process_line_parsed flag st l r.1 r.2 (by simpa using hp), ih,
        List.filterMap_cons_some hp]
      simp only [List.length_cons]
      omega

/-- A position classified as a token character always advances the token
scan by at least one byte. -/
theorem scan_tok_pos (cfg : TokCfg) (c : Nat) (rest : List Nat)
    (h : tok_adv cfg c rest ≠ Adv.stop) : 1 ≤ scan_tok cfg (c :: rest) := by
  cases rest with
  | nil =>
    simp only [scan_tok]
    cases ha : tok_adv cfg c [] with
    | stop => exact absurd ha h
    | one => dsimp only; omega
    | two => dsimp only; omega
  | cons c2 r =>
    simp only [scan_tok]
    cases ha : tok_adv cfg c (c2 :: r) with
    | stop => exact absurd ha h
    | one => dsimp only; omega
    | two => dsimp only; omega

/-- The separator skip never grows the remaining input. -/
theorem skip_sep_length (cfg : TokCfg) :
    ∀ s : List Nat, (skip_sep cfg s).length ≤ s.length := by
  intro s
  induction s with
  | nil => simp [skip_sep]
  | cons c rest ih =>
    simp only [skip_sep]
    cases tok_adv cfg c rest with
    | stop => simp only [List.length_cons]; omega
    | one => simp
    | two => simp

/-- The separator skip stops exactly at a token character. -/
theorem skip_sep_head (cfg : TokCfg) :
    ∀ s c rest, skip_sep cfg s = c :: rest → tok_adv cfg c rest ≠ Adv.stop := by
  intro s
  induction s with
  | nil => intro c rest h; simp [skip_sep] at h
  | cons c0 r0 ih =>
    intro c rest h
    simp only [skip_sep] at h
    cases ha : tok_adv cfg c0 r0 with
    | stop => rw [ha] at h; exact ih c rest h
    | one =>
      rw [ha] at h
      injection h with h1 h2
      subst h1; subst h2
      simp [ha]
    | two =>
      rw [ha] at h
      injection h with h1 h2
      subst h1; subst h2
      simp [ha]

/-- One unit of fuel beyond the input length is never consumed: every
outer-loop iteration removes at least one byte, so the loop result is
already stable at fuel equal to the input length. -/
theorem tokenize_go_succ (cfg : TokCfg) :
    ∀ fuel (s : List Nat), s.length ≤ fuel →
      tokenize_go cfg (fuel + 1) s = tokenize_go cfg fuel s := by
  intro fuel
  induction fuel with
  | zero =>
    intro s h
    have hs : s = [] := List.length_eq_zero.mp (by omega)
    subst hs
    simp [tokenize_go, skip_sep]
  | succ g ih =>
    intro s hlen
    have unfold1 : ∀ (f : Nat) (w : List Nat), tokenize_go cfg (f + 1) w =
        (match skip_sep cfg w with
         | [] => []
         | c :: rest =>
           if is_valid_token cfg (make_token cfg ((c :: rest).take (scan_tok cfg (c :: rest))))
           then make_token cfg ((c :: rest).take (scan_tok cfg (c :: rest))) ::
             tokenize_go cfg f ((c :: rest).drop (scan_tok cfg (c :: rest)))
           else tokenize_go cfg f ((c :: rest).drop (scan_tok cfg (c :: rest)))) :=
      fun f w => rfl
    rw [unfold1 (g + 1) s, unfold1 g s]
    cases hs : skip_sep cfg s with
    | nil => rfl
    | cons c rest =>
      have h1 : tok_adv cfg c rest ≠ Adv.stop := skip_sep_head cfg s c rest hs
      have h2 : 1 ≤ scan_tok cfg (c :: rest) := scan_tok_pos cfg c rest h1
      have h3 : (c :: rest).length ≤ s.length := by
        rw [← hs]; exact skip_sep_length cfg s
      have hlt : ((c :: rest).drop (scan_tok cfg (c :: rest))).length ≤ g := by
        simp only [List.length_drop, List.length_cons] at h3 ⊢
        omega
      dsimp only
      rw [ih _ hlt]

/-- Any surplus of fuel beyond the input length leaves the tokenizer
output unchanged. -/
theorem tokenize_go_stable (cfg : TokCfg) :
    ∀ (k fuel : Nat) (s : List Nat), s.length ≤ fuel →
      tokenize_go cfg (fuel + k) s = tokenize_go cfg fuel s := by
  intro k
  induction k with
  | zero => intro fuel s _; rfl
  | succ k ih =>
    intro fuel s h
    have h1 : tokenize_go cfg (fuel + k + 1) s = tokenize_go cfg (fuel + k) s :=
      tokenize_go_succ cfg (fuel + k) s (by omega)
    calc tokenize_go cfg (fuel + (k + 1)) s
        = tokenize_go cfg (fuel + k) s := h1
      _ = tokenize_go cfg fuel s := ih fuel s h

/-- The declared-order scan of strip_suffix returns the stripped form for
the first table entry passing both byte-level conditions. -/
theorem strip_suffix_eq_find (word : List Nat) :
    ∀ table, strip_suffix word table =
      match table.find? (fun suf =>
          decide (suf.length + 1 < word.length) && suf.isSuffixOf word) with
      | some suf => word.take (word.length - suf.length)
      | none => word := by
  intro table
  induction table with
  | nil => simp [strip_suffix]
  | cons suf rest ih =>
    simp only [strip_suffix]
    by_cases h : suf.length + 1 < word.length ∧ suf.isSuffixOf word = true
    · have hb : (decide (suf.length + 1 < word.length) && suf.isSuffixOf word) = true := by
        simp [h.1, h.2]
      rw [if_pos h, List.find?_cons_of_pos
        (p := fun t => decide (t.length + 1 < word.length) && t.isSuffixOf word) rest hb]
    · have hb : ¬((decide (suf.length + 1 < word.length) && suf.isSuffixOf word) = true) := by
        rcases not_and_or.mp h with h1 | h1
        · simp [h1]
        · simp only [Bool.not_eq_true] at h1
          simp [h1]
      rw [if_neg h, List.find?_cons_of_neg
        (p := fun t => decide (t.length + 1 < word.length) && t.isSuffixOf word) rest hb]
      exact ih

/-- stem_token agrees everywhere with its first-match reformulation. -/
theorem stem_token_eq_first_match (tok : List Nat) :
    stem_token tok = stem_by_first_match tok := by
  unfold stem_token stem_by_first_match
  by_cases h : tok.length ≤ 2
  · simp [if_pos h]
  · simp only [if_neg h]
    by_cases hc : has_cyrillic tok = true
    · simp only [hc, if_pos rfl]
      exact strip_suffix_eq_find tok ru_suffixes
    · simp only [Bool.not_eq_true] at hc
      rw [hc, if_neg (by simp)]
      exact strip_suffix_eq_find tok en_suffixes

/-- C1: for every corpus of lines and stemming flag, loading the saved
artifact of the built-and-finalized index restores an index equal to the
in-memory one (same document table in the same order and the same postings
association list), provided every count, string length and posting value
fits in the 32-bit fields of the binary layout. -/
theorem claim_C1_save_load_roundtrip (lines : List (List Nat)) (flag : Bool)
    (h : sizes_ok (build_index lines flag) = true) :
    load_index (save_index (build_index lines flag)) = some (build_index lines flag) :=
  load_save_roundtrip _ h

/-- C1 witness: the roundtrip at a concrete two-record corpus. -/
theorem claim_C1_witness :
    sizes_ok (build_index [demo_line1, demo_line2] true) = true ∧
    load_index (save_index (build_index [demo_line1, demo_line2] true)) =
      some (build_index [demo_line1, demo_line2] true) :=
  ⟨by decide, claim_C1_save_load_roundtrip [demo_line1, demo_line2] true (by decide)⟩

/-- C2: the evaluator has no underflow check: on the malformed postfix of
the query consisting of the single word not, it pops the back of an empty
operand stack (undefined behaviour in the C++ source, modelled as none),
instead of returning the explicit MalformedQuery error the spec requires. -/
theorem claim_C2_underflow_at_not :
    eval_rpn { docs := [[100, 49]], postings := [([120, 120], [0])] }
      (to_rpn (parse_query search_cfg true [110, 111, 116])) [] = none := by
  decide

/-- C3: to_lower maps ASCII A-Z to a-z, a 0xD0 lead with trail 0x90..0xAF
to the trail plus 0x20, the pair 0xD0 0x81 to 0xD1 0x91, and copies every
other byte unchanged. -/
theorem claim_C3_to_lower (c t : Nat) (s : List Nat) :
    (65 ≤ c → c ≤ 90 → to_lower (c :: s) = (c + 32) :: to_lower s) ∧
    (144 ≤ t → t ≤ 175 → to_lower (208 :: t :: s) = 208 :: (t + 32) :: to_lower s) ∧
    to_lower (208 :: 129 :: s) = 209 :: 145 :: to_lower s ∧
    (¬(65 ≤ c ∧ c ≤ 90) → c ≠ 208 → to_lower (c :: s) = c :: to_lower s) ∧
    (¬(144 ≤ t ∧ t ≤ 175) → t ≠ 129 → to_lower (208 :: t :: s) = 208 :: to_lower (t :: s)) ∧
    to_lower [208] = [208] := by
  refine ⟨?_, ?_, ?_, ?_, ?_, ?_⟩
  · intro h1 h2
    cases s with
    | nil => simp [to_lower, h1, h2]
    | cons c2 rest => simp [to_lower, h1, h2]
  · intro h1 h2
    have hng : ¬(65 ≤ 208 ∧ 208 ≤ 90) := by omega
    simp only [to_lower, if_neg hng]
    rw [if_pos (show True ∧ 144 ≤ t ∧ t ≤ 175 from ⟨trivial, h1, h2⟩)]
  · have hng : ¬(65 ≤ 208 ∧ 208 ≤ 90) := by omega
    simp only [to_lower, if_neg hng]
    rw [if_neg (by decide), if_pos (by decide)]
  · intro h1 h2
    cases s with
    | nil => simp [to_lower, h1]
    | cons c2 rest =>
      have hng2 : ¬(c = 208 ∧ 144 ≤ c2 ∧ c2 ≤ 175) := by
        rintro ⟨rfl, _⟩; exact h2 rfl
      have hng3 : ¬(c = 208 ∧ c2 = 129) := by
        rintro ⟨rfl, _⟩; exact h2 rfl
      simp only [to_lower, if_neg h1, if_neg hng2, if_neg hng3]
  · intro h1 h2
    have hng : ¬(65 ≤ 208 ∧ 208 ≤ 90) := by omega
    simp only [to_lower, if_neg hng]
    rw [if_neg (show ¬(True ∧ 144 ≤ t ∧ t ≤ 175) from fun hc => h1 ⟨hc.2.1, hc.2.2⟩),
      if_neg (show ¬(True ∧ t = 129) from fun hc => h2 hc.2)]
  · simp [to_lower]

/-- C3 witness: the case equations applied at concrete bytes. -/
theorem claim_C3_witness :
    to_lower [65] = (65 + 32) :: to_lower [] ∧
    to_lower [208, 144] = 208 :: (144 + 32) :: to_lower [] :=
  ⟨(claim_C3_to_lower 65 144 []).1 (by decide) (by decide),
   (claim_C3_to_lower 65 144 []).2.1 (by decide) (by decide)⟩

/-- C4 counterexample: on a two-document index holding the term xx in
document 0, the full pipeline result of the query not not xx differs from
the result of the query xx: the shunting-yard pops the pending NOT on an
equal-precedence tie, emitting postfix NOT xx NOT, whose evaluation pops
an empty operand stack (modelled none) while the plain query returns the
posting list. -/
theorem claim_C4_counterexample :
    eval_rpn { docs := [[100, 49], [100, 50]], postings := [([120, 120], [0])] }
        (to_rpn (parse_query search_cfg true [110, 111, 116, 32, 110, 111, 116, 32, 120, 120])) []
      ≠
    eval_rpn { docs := [[100, 49], [100, 50]], postings := [([120, 120], [0])] }
        (to_rpn (parse_query search_cfg true [120, 120])) [] := by
  decide

/-- C4 amended: the shunting-yard turns NOT NOT X into the postfix
sequence NOT X NOT, whose evaluation underflows the operand stack
(undefined behaviour, modelled none) instead of evaluating X; double
negation itself is valid at the set level: complementing twice against
the universe of document ids restores any strictly increasing in-range
posting list. -/
theorem claim_C4_double_negation (idx : Index) (x : List Nat) (n : Nat) (a : List Nat)
    (ha : a.Pairwise (· < ·)) (hb : ∀ z ∈ a, z < n) :
    to_rpn [QTok.qnot, QTok.qnot, QTok.term x] = [QTok.qnot, QTok.term x, QTok.qnot] ∧
    eval_rpn idx (to_rpn [QTok.qnot, QTok.qnot, QTok.term x]) [] = none ∧
    set_not (List.range n) (set_not (List.range n) a) = a := by
  refine ⟨rfl, rfl, ?_⟩
  exact set_not_involutive (List.range n) a (List.pairwise_lt_range n) ha
    (fun z hz => List.mem_range.mpr (hb z hz))

/-- C4 witness: the amended statement at a concrete index and list. -/
theorem claim_C4_witness :
    to_rpn [QTok.qnot, QTok.qnot, QTok.term [120, 120]] =
      [QTok.qnot, QTok.term [120, 120], QTok.qnot] ∧
    set_not (List.range 2) (set_not (List.range 2) [0]) = [0] :=
  ⟨(claim_C4_double_negation { docs := [[100, 49], [100, 50]], postings := [([120, 120], [0])] }
      [120, 120] 2 [0] (by decide) (by decide)).1,
   (claim_C4_double_negation { docs := [[100, 49], [100, 50]], postings := [([120, 120], [0])] }
      [120, 120] 2 [0] (by decide) (by decide)).2.2⟩

/-- C5: after build finalization, every posting list of the index is
strictly increasing, hence free of duplicate document ids. -/
theorem claim_C5_postings_strictly_increasing (lines : List (List Nat)) (flag : Bool)
    (t pl : List Nat) (h : (t, pl) ∈ (build_index lines flag).postings) :
    pl.Pairwise (· < ·) := by
  simp only [build_index, finalize_postings, List.mem_map] at h
  obtain ⟨p, _, heq⟩ := h
  have hpl : pl = unique_adj (p.2.insertionSort (· ≤ ·)) :=
    (congrArg Prod.snd heq).symm
  rw [hpl]
  exact pairwise_lt_unique_adj _ (List.sorted_insertionSort _ _)

/-- C5 witness: the shared term cd of the two demo records carries the
strictly increasing posting list [0, 1]. -/
theorem claim_C5_witness :
    (([99, 100], [0, 1]) ∈ (build_index [demo_line1, demo_line2] true).postings) ∧
    List.Pairwise (· < ·) [0, 1] :=
  ⟨by decide,
   claim_C5_postings_strictly_increasing [demo_line1, demo_line2] true
     [99, 100] [0, 1] (by decide)⟩

/-- C6: through the full shunting-yard and evaluator pipeline, the result
of the query A AND B is contained in the results of A and of B, and the
results of A and of B are contained in the result of A OR B. -/
theorem claim_C6_and_or_bounds (idx : Index) (a b : List Nat) (x : Nat) :
    (x ∈ (eval_rpn idx (to_rpn [QTok.term a, QTok.qand, QTok.term b]) []).getD [] →
      x ∈ (eval_rpn idx (to_rpn [QTok.term a]) []).getD []) ∧
    (x ∈ (eval_rpn idx (to_rpn [QTok.term a, QTok.qand, QTok.term b]) []).getD [] →
      x ∈ (eval_rpn idx (to_rpn [QTok.term b]) []).getD []) ∧
    (x ∈ (eval_rpn idx (to_rpn [QTok.term a]) []).getD [] →
      x ∈ (eval_rpn idx (to_rpn [QTok.term a, QTok.qor, QTok.term b]) []).getD []) ∧
    (x ∈ (eval_rpn idx (to_rpn [QTok.term b]) []).getD [] →
      x ∈ (eval_rpn idx (to_rpn [QTok.term a, QTok.qor, QTok.term b]) []).getD []) := by
  have hA : eval_rpn idx (to_rpn [QTok.term a]) [] = some (postings_for idx a) := rfl
  have hB : eval_rpn idx (to_rpn [QTok.term b]) [] = some (postings_for idx b) := rfl
  have hAND : eval_rpn idx (to_rpn [QTok.term a, QTok.qand, QTok.term b]) [] =
      some (set_and (postings_for idx a) (postings_for idx b)) := rfl
  have hOR : eval_rpn idx (to_rpn [QTok.term a, QTok.qor, QTok.term b]) [] =
      some (set_or (postings_for idx a) (postings_for idx b)) := rfl
  rw [hA, hB, hAND, hOR]
  simp only [Option.getD_some]
  refine ⟨?_, ?_, ?_, ?_⟩
  · intro hx
    exact (set_and_go_sublist _ _ _).subset hx
  · intro hx
    exact mem_of_mem_set_and_go _ _ _ x hx
  · intro hx
    exact mem_set_or_go_left _ _ _ [] x (le_refl _) hx
  · intro hx
    exact mem_set_or_go_right _ _ _ [] x (le_refl _) hx

/-- C6 witness: containment applied on a concrete index where AND and OR
results are nontrivial. -/
theorem claim_C6_witness :
    (1 : Nat) ∈ (eval_rpn ⟨[[100, 49], [100, 50]], [([97, 97], [0, 1]), ([98, 98], [1])]⟩
      (to_rpn [QTok.term [97, 97]]) []).getD [] :=
  (claim_C6_and_or_bounds ⟨[[100, 49], [100, 50]], [([97, 97], [0, 1]), ([98, 98], [1])]⟩
    [97, 97] [98, 98] 1).1 (by decide)

/-- C7 counterexample: the stemmer strips by a byte-length condition, not
the character-length condition the claim states: on the two-character
Cyrillic word composed of two letters ya, the code strips the suffix ya
leaving a one-character remainder, while the claim, under which no suffix
qualifies, requires the word back unchanged. -/
theorem claim_C7_counterexample :
    stem_token [209, 143, 209, 143] = [209, 143] ∧
    stem_claim_chars [209, 143, 209, 143] = [209, 143, 209, 143] ∧
    stem_token [209, 143, 209, 143] ≠ stem_claim_chars [209, 143, 209, 143] := by
  refine ⟨by decide, by decide, by decide⟩

/-- C7 amended: stem returns terms of at most two bytes unchanged, and
otherwise strips the first suffix in declared table order (Russian table
when any byte is at least 0xD0, else English) that matches the ending and
leaves a remainder strictly longer than one byte (not one character),
returning the term unchanged when no suffix qualifies; in particular
stem a = a and stem running = runn. -/
theorem claim_C7_stem_first_match (tok : List Nat) :
    stem_token tok = stem_by_first_match tok ∧
    stem_token [97] = [97] ∧
    stem_token [114, 117, 110, 110, 105, 110, 103] = [114, 117, 110, 110] :=
  ⟨stem_token_eq_first_match tok, by decide, by decide⟩

/-- C8: a corpus line from which the id or text field cannot be extracted
leaves the builder state untouched (no document entry, no id consumed),
and over any corpus the document table lists exactly the successfully
parsed records in order with the id counter equal to its length, so
document ids stay contiguous. -/
theorem claim_C8_malformed_line_skipped (flag : Bool) (lines : List (List Nat))
    (line : List Nat) (st : BState)
    (h : extract_field line id_key = none ∨ extract_field line text_key = none) :
    process_line flag st line = st ∧
    (build_go flag lines).docs = (lines.filterMap parse_rec).map Prod.fst ∧
    (build_go flag lines).next_id = (build_go flag lines).docs.length := by
  refine ⟨?_, ?_, ?_⟩
  · apply process_line_skip
    unfold parse_rec
    by_cases he : line = []
    · simp [he]
    · simp only [if_neg he]
      rcases h with h | h
      · simp [h]
      · cases hid : extract_field line id_key with
        | none => rfl
        | some i => simp [h]
  · unfold build_go
    rw [foldl_process_docs]
    simp [init_state]
  · unfold build_go
    rw [foldl_process_next_id, foldl_process_docs]
    simp [init_state]

/-- C8 witness: a malformed middle line is skipped and the two good
records get the contiguous ids 0 and 1. -/
theorem claim_C8_witness :
    process_line true init_state [123, 125] = init_state ∧
    (build_go true [demo_line1, [123, 125], demo_line2]).docs =
      (([demo_line1, [123, 125], demo_line2].filterMap parse_rec).map Prod.fst) :=
  ⟨(claim_C8_malformed_line_skipped true [demo_line1, [123, 125], demo_line2]
      [123, 125] init_state (Or.inl (by decide))).1,
   (claim_C8_malformed_line_skipped true [demo_line1, [123, 125], demo_line2]
      [123, 125] init_state (Or.inl (by decide))).2.1⟩

/-- C9: the tokenizer is total on arbitrary byte strings: a position
classified as a token character advances the scan by at least one byte,
the separator skip never grows the input, and any fuel bound at least the
input length (one outer iteration consumes at least one byte) yields the
same, stable token list: the fuelled loop has reached its fixpoint. -/
theorem claim_C9_tokenize_total (cfg : TokCfg) (c : Nat) (rest s : List Nat) (fuel : Nat) :
    (tok_adv cfg c rest ≠ Adv.stop → 1 ≤ scan_tok cfg (c :: rest)) ∧
    (skip_sep cfg s).length ≤ s.length ∧
    (s.length ≤ fuel → tokenize_go cfg fuel s = tokenize cfg s) := by
  refine ⟨scan_tok_pos cfg c rest, skip_sep_length cfg s, ?_⟩
  intro h
  have hk : fuel = s.length + (fuel - s.length) := by omega
  rw [hk, tokenize_go_stable cfg (fuel - s.length) s.length s (le_refl _)]
  rfl

/-- C9 witness: progress and stability at concrete inputs, among them a
malformed UTF-8 byte string with a dangling 0xD0 lead byte. -/
theorem claim_C9_witness :
    (1 ≤ scan_tok search_cfg [97]) ∧
    tokenize_go search_cfg 5 [208, 97, 98] = tokenize search_cfg [208, 97, 98] :=
  ⟨(claim_C9_tokenize_total search_cfg 97 [] [208, 97, 98] 5).1 (by decide),
   (claim_C9_tokenize_total search_cfg 97 [] [208, 97, 98] 5).2.2 (by decide)⟩

/-- C10: set_and, set_or and set_not preserve strictly-increasing,
in-range posting lists, and consequently every successful evaluation of a
postfix program over a well-formed index returns a strictly increasing
duplicate-free list of valid document-table indices. -/
theorem claim_C10_set_ops_preserve (n : Nat) (a b u : List Nat) (idx : Index)
    (pf : List QTok) (res : List Nat)
    (ha : sorted_bounded n a) (hb : sorted_bounded n b) (hu : sorted_bounded n u) :
    sorted_bounded n (set_and a b) ∧ sorted_bounded n (set_or a b) ∧
    sorted_bounded n (set_not u b) ∧
    (index_ok idx → eval_rpn idx pf [] = some res →
      sorted_bounded idx.docs.length res) := by
  refine ⟨sorted_bounded_set_and n a b ha, sorted_bounded_set_or n a b ha hb,
    sorted_bounded_set_not n u b hu, ?_⟩
  intro hok hres
  exact eval_rpn_ok idx hok pf [] res (by intro l hl; simp at hl) hres

/-- C10 witness: preservation applied at concrete lists and a concrete
well-formed one-document index. -/
theorem claim_C10_witness :
    sorted_bounded 3 (set_and [0, 2] [1, 2]) ∧ sorted_bounded 1 [0] :=
  ⟨(claim_C10_set_ops_preserve 3 [0, 2] [1, 2] [0, 1, 2] ⟨[[100]], [([97, 97], [0])]⟩
      [QTok.term [97, 97]] [0] (by decide) (by decide) (by decide)).1,
   (claim_C10_set_ops_preserve 3 [0, 2] [1, 2] [0, 1, 2] ⟨[[100]], [([97, 97], [0])]⟩
      [QTok.term [97, 97]] [0] (by decide) (by decide) (by decide)).2.2.2
     (by decide) (by decide)⟩
